import Mathlib

/-!
# The TTL cookie store of `requester/cookies`

A shallow embedding of `cookies/cookies.go`, `cookies/cookies_normal.go` and,
for the backend variant, `cookies/cookies_wasm.go`.

Modelling conventions.

* A `time.Time` is an instant on a totally ordered clock, counted in
  nanoseconds: `Time := Int`.  `t.Before(u)` is `t < u`, and
  `t.Add(d)` is `t + d`.  The reading of `time.Now()` is an explicit argument
  `now` of every function that consults the clock.
* A Go `int` field is an `Int`.  The only arithmetic on `MaxAge` is
  `MaxAge - 1`, evaluated on a record that already passed `IsValid`
  (so `MaxAge >= 0`); it cannot wrap.  The product
  `time.Duration(secs) * time.Second` is an `int64` product and is wrapped.
* `[]*Cookie` is a `List Cookie` where only the sequence of records matters
  (insertion, lookup, removal, the map).  A `CookieJar` is then the store whose
  cells each hold an object of their own.  Where a sweep writes through the
  pointers, the store is also given as a `Memory`: the objects by address and
  the slice of addresses, in which one address may occur several times.
  `append(s[:i], s[i+1:]...)` yields `s.take i ++ s.drop (i+1)`.
* A method that mutates its receiver and returns an `error` becomes a function
  returning the new store together with `Option String` (`none` is `nil`).
* The mutex does not appear: operations are run one after the other.  The
  channel `terminate` appears only in `Stop`, as open or closed, together with
  the state of the goroutine that receives from it.  A hook is represented by a flag (is the field non-nil) and
  its invocations are recorded in a trace; a hook is taken to leave the store
  and the record it receives as they are.
* One sweep of `collect` reads the clock several times; the model gives every
  reading of one sweep the same value.  `SetHTTPCookies` reads the clock once
  for each cookie; the model takes these readings as a function of the index.
* The methods of `cookies_wasm.go` return, besides the store and the error,
  the texts they assign to `document.cookie`.
-/

namespace Cookies

/-- An instant, in nanoseconds. -/
abbrev Time := Int

/-- The type `SameSite int`. -/
abbrev SameSite := Int

/-- The constant `MaxAgeNotSet`. -/
def MaxAgeNotSet : Int := 0

/-- The struct `Cookie`. -/
structure Cookie where
  Name : String
  Value : String
  Path : String
  Domain : String
  Expires : Time
  MaxAge : Int
  Secure : Bool
  HttpOnly : Bool
  SameSite : SameSite
  Raw : String
  CalledCloseToExpire : Bool
deriving DecidableEq, Repr, Inhabited

/-- The method `(*Cookie).IsValid`, with `time.Now()` read as `now`. -/
def Cookie.IsValid (now : Time) (c : Cookie) : Bool :=
  if c.Expires < now then
    false
  else if c.MaxAge < MaxAgeNotSet then
    false
  else
    true

/-- The struct `CookieJar`.  `OnExpire` and `CloseToExpire` say whether the
hook of that name is non-nil. -/
structure CookieJar where
  cookies : List Cookie
  OnExpire : Bool
  CloseToExpire : Bool
  CloseToExpireTimeSeconds : Int
deriving DecidableEq, Repr

/-- The constructor `NewCookieJar` (the sweeper it starts is `collect`). -/
def NewCookieJar : CookieJar :=
  { cookies := [], OnExpire := false, CloseToExpire := false, CloseToExpireTimeSeconds := 60 }

/-- The method `SetCookie` of `cookies_normal.go`. -/
def CookieJar.SetCookie (now : Time) (cj : CookieJar) (cookie : Cookie) :
    CookieJar × Option String :=
  if !cookie.IsValid now then
    (cj, some "cookie is invalid")
  else
    ({ cj with cookies := cj.cookies ++ [cookie] }, none)

/-- The loop of `Get` over the records that are still to be inspected. -/
def getLoop (now : Time) (name : String) : List Cookie → Except String Cookie
  | [] => .error "cookie not found"
  | cookie :: rest =>
    if cookie.Name == name then
      if !cookie.IsValid now then .error "cookie is invalid" else .ok cookie
    else getLoop now name rest

/-- The method `Get`. -/
def CookieJar.Get (now : Time) (cj : CookieJar) (name : String) : Except String Cookie :=
  getLoop now name cj.cookies

/-- The method `All`. -/
def CookieJar.All (cj : CookieJar) : List Cookie :=
  cj.cookies

/-- The method `DelCookieIndex` of `cookies_normal.go`. -/
def CookieJar.DelCookieIndex (cj : CookieJar) (index : Int) : CookieJar × Option String :=
  if index < 0 || index ≥ (cj.cookies.length : Int) then
    (cj, some "index out of range")
  else
    ({ cj with cookies := cj.cookies.take index.toNat ++ cj.cookies.drop (index.toNat + 1) }, none)

/-- The loop of `DelCookie`: `i` is the position of the head of the records
still to be inspected inside `all`, the whole slice. -/
def delCookieLoop (name : String) (all : List Cookie) : Nat → List Cookie → Option (List Cookie)
  | _, [] => none
  | i, cookie :: rest =>
    if cookie.Name == name then
      some (all.take i ++ all.drop (i + 1))
    else delCookieLoop name all (i + 1) rest

/-- The method `DelCookie` of `cookies_normal.go`. -/
def CookieJar.DelCookie (cj : CookieJar) (name : String) : CookieJar × Option String :=
  match delCookieLoop name cj.cookies 0 cj.cookies with
  | some l => ({ cj with cookies := l }, none)
  | none => (cj, some "cookie not found")

/-- A Go `map[string]string`: the value stored under each key, if any. -/
abbrev StringMap := String → Option String

/-- The statement `kv[key] = value`. -/
def StringMap.set (kv : StringMap) (key value : String) : StringMap :=
  fun k => if k = key then some value else kv k

/-- The body of the loop of `AsMap` for one record. -/
def asMapStep (now : Time) (cookies : List String) (kv : StringMap) (cookie : Cookie) :
    StringMap :=
  if !cookie.IsValid now then
    kv
  else
    let found := cookies.any (fun name => cookie.Name == name)
    if cookies.length > 0 && !found then
      kv
    else
      kv.set cookie.Name cookie.Value

/-- The method `AsMap`; `cookies` is the variadic list of names. -/
def CookieJar.AsMap (now : Time) (cj : CookieJar) (cookies : List String) : StringMap :=
  cj.cookies.foldl (asMapStep now cookies) (fun _ => none)

/-- An invocation of a hook, with the record as the hook received it. -/
inductive Event where
  | OnExpire (cookie : Cookie)
  | CloseToExpire (cookie : Cookie)
deriving DecidableEq, Repr

/-- The value of an `int64` expression whose exact value is `x`. -/
def wrapInt64 (x : Int) : Int :=
  (x + 2 ^ 63) % 2 ^ 64 - 2 ^ 63

/-- The memory one sweep works on.  `for i, cookie := range cj.cookies`
evaluates `cj.cookies` once, so the loop reads the cells of the backing array
the slice had when the sweep began, while `DelCookieIndex` shortens
`cj.cookies` by moving cells of that same array.

* `objects`: the records the slice points to, by identity (the position the
  record had when the sweep began);
* `array`: the cells of the backing array, each holding an identity;
* `len`: the current `len(cj.cookies)`, so that `cj.cookies` is the first
  `len` cells;
* `trace`: the hook invocations so far. -/
structure Sweep where
  objects : List Cookie
  array : List Nat
  len : Nat
  trace : List Event
deriving DecidableEq, Repr

/-- The slice `cj.cookies` during a sweep, as identities. -/
def Sweep.live (s : Sweep) : List Nat :=
  s.array.take s.len

/-- The call `cj.DelCookieIndex(index)` during a sweep (its error is dropped by
the caller): `append(cj.cookies[:index], cj.cookies[index+1:]...)` fits the
capacity, so its result is written over the front of the backing array and the
cells behind it keep what they held. -/
def Sweep.DelCookieIndex (s : Sweep) (index : Int) : Sweep :=
  if index < 0 || index ≥ (s.len : Int) then
    s
  else
    let appended := s.live.take index.toNat ++ s.live.drop (index.toNat + 1)
    { s with array := appended ++ s.array.drop appended.length, len := appended.length }

/-- One iteration of the `range` loop of `collect`, at index `i`. -/
def sweepStep (cj : CookieJar) (now : Time) (s : Sweep) (i : Nat) : Sweep :=
  match s.array[i]? with
  | none => s
  | some p =>
    match s.objects[p]? with
    | none => s
    | some cookie =>
      if !cookie.IsValid now || cookie.MaxAge - 1 == MaxAgeNotSet then
        let s1 := if cj.OnExpire then { s with trace := s.trace ++ [Event.OnExpire cookie] } else s
        s1.DelCookieIndex i
      else if cookie.MaxAge - 1 ≤ cj.CloseToExpireTimeSeconds
          || cookie.Expires < now + wrapInt64 (cj.CloseToExpireTimeSeconds * 1000000000) then
        if cj.CloseToExpire && !cookie.CalledCloseToExpire then
          { s with
            trace := s.trace ++ [Event.CloseToExpire cookie]
            objects := s.objects.set p { cookie with CalledCloseToExpire := true } }
        else
          s
      else
        { s with objects := s.objects.set p { cookie with MaxAge := cookie.MaxAge - 1 } }

/-- The memory at the start of a sweep over the store `cj`, every cell holding
an object of its own: the record in cell `i` is the object `i`.  For a store
in which one pointer stands in several cells see `Sweep.begin`. -/
def Sweep.start (cj : CookieJar) : Sweep :=
  { objects := cj.cookies
    array := List.range cj.cookies.length
    len := cj.cookies.length
    trace := [] }

/-- The `case <-ticker.C` arm of `collect`: one sweep of the store, the clock
reading `now` throughout.  Returns the store after the sweep and the hook
invocations of the sweep, in order.  The cells of `cj` hold distinct objects;
`CookieJar.collectTickMemory` is the sweep of a store given by its pointers. -/
def CookieJar.collectTick (now : Time) (cj : CookieJar) : CookieJar × List Event :=
  let s := (List.range cj.cookies.length).foldl (sweepStep cj now) (Sweep.start cj)
  ({ cj with cookies := s.live.filterMap (fun p => s.objects[p]?) }, s.trace)

/-- The loop of `collect`: one sweep for each reading of the ticker in `nows`,
then the termination signal.  Returns the final store and all hook invocations. -/
def CookieJar.collect (cj : CookieJar) : List Time → CookieJar × List Event
  | [] => (cj, [])
  | now :: nows =>
    let r := cj.collectTick now
    let r2 := CookieJar.collect r.1 nows
    (r2.1, r.2 ++ r2.2)

/-- The first record of `l` named `name`, in store order. -/
def firstNamed (name : String) (l : List Cookie) : Option Cookie :=
  l.find? (fun c => c.Name == name)

/-- The last record of `l`, in store order, that is named `name` and valid at `now`. -/
def lastValidNamed (now : Time) (name : String) (l : List Cookie) : Option Cookie :=
  l.reverse.find? (fun c => c.IsValid now && c.Name == name)

/-- The test `AsMap` applies to a record before writing it to the map. -/
def selected (now : Time) (cookies : List String) (c : Cookie) : Bool :=
  c.IsValid now && (cookies.length == 0 || cookies.any (fun name => c.Name == name))

/-- A record for examples: only the fields the store inspects vary. -/
def sample (name value : String) (expires : Time) (maxAge : Int) : Cookie :=
  { Name := name, Value := value, Path := "/", Domain := "localhost",
    Expires := expires, MaxAge := maxAge, Secure := false, HttpOnly := false,
    SameSite := 0, Raw := "", CalledCloseToExpire := false }

/-- The store of the countdown scenario: `NewCookieJar()`, then the `OnExpire`
hook is set, then at instant `0` a record named "a" with `MaxAge = 2` is
inserted whose `Expires` lies 1000 seconds ahead. -/
def countdownJar : CookieJar :=
  (CookieJar.SetCookie 0 { NewCookieJar with OnExpire := true }
    (sample "a" "1" 1000000000000 2)).1

/-- A store for examples: `NewCookieJar` holding the records `l`, both hooks set. -/
def sampleJar (l : List Cookie) : CookieJar :=
  { NewCookieJar with cookies := l, OnExpire := true, CloseToExpire := true }

/-- The struct `http.Cookie` of `net/http`, with the ten fields `SetHTTPCookie`
reads. -/
structure HTTPCookie where
  Name : String
  Value : String
  Path : String
  Domain : String
  Expires : Time
  MaxAge : Int
  Secure : Bool
  HttpOnly : Bool
  SameSite : Int
  Raw : String
deriving DecidableEq, Repr

/-- The record `SetHTTPCookie` builds from an `http.Cookie`: the composite
literal names ten fields and leaves `CalledCloseToExpire` at its zero value. -/
def HTTPCookie.adapt (cookie : HTTPCookie) : Cookie :=
  { Name := cookie.Name
    Value := cookie.Value
    Path := cookie.Path
    Domain := cookie.Domain
    Expires := cookie.Expires
    MaxAge := cookie.MaxAge
    Secure := cookie.Secure
    HttpOnly := cookie.HttpOnly
    SameSite := cookie.SameSite
    Raw := cookie.Raw
    CalledCloseToExpire := false }

/-- The method `SetHTTPCookie`. -/
def CookieJar.SetHTTPCookie (now : Time) (cj : CookieJar) (cookie : HTTPCookie) :
    CookieJar × Option String :=
  cj.SetCookie now cookie.adapt

/-- The loop of `SetHTTPCookies`; `clock i` is the reading of `time.Now()` in
iteration `i`, and `i` is the index of the head of the cookies still to do. -/
def setHTTPCookiesLoop (clock : Nat → Time) :
    Nat → CookieJar → List HTTPCookie → CookieJar × Option String
  | _, cj, [] => (cj, none)
  | i, cj, cookie :: rest =>
    match cj.SetHTTPCookie (clock i) cookie with
    | (cj1, some err) => (cj1, some err)
    | (cj1, none) => setHTTPCookiesLoop clock (i + 1) cj1 rest

/-- The method `SetHTTPCookies`. -/
def CookieJar.SetHTTPCookies (clock : Nat → Time) (cj : CookieJar) (cookies : List HTTPCookie) :
    CookieJar × Option String :=
  setHTTPCookiesLoop clock 0 cj cookies

/-- The function `SetDOMCookie` of `cookies_wasm.go`: the text it assigns to
`document.cookie`. -/
def SetDOMCookie (name value : String) : String :=
  name ++ "=" ++ value ++ ";"

/-- What a method of `cookies_wasm.go` leaves behind: the store, the error, and
the texts assigned to `document.cookie`, in order. -/
structure WasmResult where
  jar : CookieJar
  err : Option String
  dom : List String
deriving DecidableEq, Repr

/-- The method `DelCookieIndex` of `cookies_wasm.go`.  Past the bounds test
`cj.cookies[index]` exists, so the `none` case below is never taken. -/
def Wasm.DelCookieIndex (cj : CookieJar) (index : Int) : WasmResult :=
  if index < 0 || index ≥ (cj.cookies.length : Int) then
    { jar := cj, err := some "index out of range", dom := [] }
  else
    match cj.cookies[index.toNat]? with
    | none => { jar := cj, err := some "index out of range", dom := [] }
    | some cookie =>
      let cookiename := cookie.Name
      { jar := { cj with
          cookies := cj.cookies.take index.toNat ++ cj.cookies.drop (index.toNat + 1) }
        err := none
        dom := [SetDOMCookie cookiename ""] }

/-- The loop of `DelCookie` of `cookies_wasm.go`. -/
def Wasm.delCookieLoop (name : String) (all : List Cookie) :
    Nat → List Cookie → Option (List Cookie × List String)
  | _, [] => none
  | i, cookie :: rest =>
    if cookie.Name == name then
      some (all.take i ++ all.drop (i + 1), [SetDOMCookie name ""])
    else Wasm.delCookieLoop name all (i + 1) rest

/-- The method `DelCookie` of `cookies_wasm.go`. -/
def Wasm.DelCookie (cj : CookieJar) (name : String) : WasmResult :=
  match Wasm.delCookieLoop name cj.cookies 0 cj.cookies with
  | some (l, dom) => { jar := { cj with cookies := l }, err := none, dom := dom }
  | none => { jar := cj, err := some "cookie not found", dom := [] }

/-- The method `SetCookie` of `cookies_wasm.go`. -/
def Wasm.SetCookie (now : Time) (cj : CookieJar) (cookie : Cookie) : WasmResult :=
  if !cookie.IsValid now then
    { jar := cj, err := some "cookie is invalid", dom := [] }
  else
    { jar := { cj with cookies := cj.cookies ++ [cookie] }
      err := none
      dom := [SetDOMCookie cookie.Name cookie.Value] }

/-- The first test of the sweep, `!cookie.IsValid() || cookie.MaxAge-1 == MaxAgeNotSet`:
the record is invalid or its countdown stands at one. -/
def eligible (now : Time) (cookie : Cookie) : Bool :=
  !cookie.IsValid now || cookie.MaxAge - 1 == MaxAgeNotSet

/-- The second test of the sweep: the countdown or the distance to `Expires` is
within `CloseToExpireTimeSeconds`. -/
def nearExpiry (cj : CookieJar) (now : Time) (cookie : Cookie) : Bool :=
  cookie.MaxAge - 1 ≤ cj.CloseToExpireTimeSeconds
    || cookie.Expires < now + wrapInt64 (cj.CloseToExpireTimeSeconds * 1000000000)

/-- A record without the two fields a sweep writes, `MaxAge` and
`CalledCloseToExpire`: what stays of a record for as long as it is stored. -/
def Cookie.identity (c : Cookie) : Cookie :=
  { c with MaxAge := 0, CalledCloseToExpire := false }

/-- The record `c2` is the record `c` at a later time: the same record, its
countdown not higher, its latch not cleared. -/
def Cookie.agedFrom (c2 c : Cookie) : Prop :=
  c2.identity = c.identity ∧ c2.MaxAge ≤ c.MaxAge ∧
    (c.CalledCloseToExpire = true → c2.CalledCloseToExpire = true)

/-- How a sweep at `now` may turn the sequence `before` into `after`: each
record is either kept, in place and possibly aged, or dropped, and a dropped
record was invalid at `now` or had its countdown at one. -/
inductive Swept (now : Time) : List Cookie → List Cookie → Prop where
  | done : Swept now [] []
  | keep {c c2 : Cookie} {before after : List Cookie} :
      c2.agedFrom c → Swept now before after → Swept now (c :: before) (c2 :: after)
  | drop {c : Cookie} {before after : List Cookie} :
      eligible now c = true → Swept now before after → Swept now (c :: before) after

/-- An `http.Cookie` for examples. -/
def sampleHTTP (name value : String) (expires : Time) (maxAge : Int) : HTTPCookie :=
  { Name := name, Value := value, Path := "/", Domain := "localhost",
    Expires := expires, MaxAge := maxAge, Secure := false, HttpOnly := false,
    SameSite := 0, Raw := "" }

/-- The store as the code holds it in memory: the `Cookie` objects, by address,
and the slice `cj.cookies` of addresses.  One address may stand in several
cells of the slice, as after `SetCookie(p)` called twice with one pointer. -/
structure Memory where
  objects : List Cookie
  slots : List Nat
deriving DecidableEq, Repr

/-- The records of the store, cell by cell. -/
def Memory.records (mem : Memory) : List Cookie :=
  mem.slots.filterMap (fun p => mem.objects[p]?)

/-- The memory at the start of a sweep over the store `mem`. -/
def Sweep.begin (mem : Memory) : Sweep :=
  { objects := mem.objects
    array := mem.slots
    len := mem.slots.length
    trace := [] }

/-- The `case <-ticker.C` arm of `collect` on a store given as memory, the
clock reading `now` throughout.  Of `cj` only the hooks and the threshold are
read; the records are those of `mem`.  Returns the memory after the sweep and
the hook invocations.  `CookieJar.collectTick` is the case in which every cell
holds an object of its own. -/
def CookieJar.collectTickMemory (cj : CookieJar) (now : Time) (mem : Memory) :
    Memory × List Event :=
  let s := (List.range mem.slots.length).foldl (sweepStep cj now) (Sweep.begin mem)
  ({ objects := s.objects, slots := s.live }, s.trace)

/-- The goroutine started by `collect` and its channel `terminate`: `looping`
while the goroutine is in its loop and receives from the channel, `closed`
once the loop has ended and `close(cj.terminate)` has run. -/
structure Sweeper where
  looping : Bool
  closed : Bool
deriving DecidableEq, Repr

/-- The sweeper of a jar just made by `NewCookieJar`. -/
def Sweeper.started : Sweeper :=
  { looping := true, closed := false }

/-- How a call ends: it returns, it panics, or it never returns. -/
inductive Outcome where
  | returned
  | panicked
  | blocked
deriving DecidableEq, Repr

/-- The arm `case <-c.terminate` of `collect` and what follows it: `looping`
becomes false, the loop ends, and `close(cj.terminate)` runs. -/
def Sweeper.receive (_sw : Sweeper) : Sweeper :=
  { looping := false, closed := true }

/-- The method `Stop`, the send `cj.terminate <- true`.  A send on a closed
channel panics.  On the open channel the goroutine in its loop receives the
value and the send returns; with no goroutine left to receive, the send never
completes. -/
def Stop (sw : Sweeper) : Sweeper × Outcome :=
  if sw.closed then
    (sw, Outcome.panicked)
  else if sw.looping then
    (sw.receive, Outcome.returned)
  else
    (sw, Outcome.blocked)

theorem isValid_eq_true (now : Time) (c : Cookie) :
    c.IsValid now = true ↔ ¬ c.Expires < now ∧ ¬ c.MaxAge < 0 := by
  unfold Cookie.IsValid MaxAgeNotSet
  by_cases h1 : c.Expires < now <;> by_cases h2 : c.MaxAge < 0 <;> simp [h1, h2]

theorem isValid_eq_false (now : Time) (c : Cookie) :
    c.IsValid now = false ↔ c.Expires < now ∨ c.MaxAge < 0 := by
  unfold Cookie.IsValid MaxAgeNotSet
  by_cases h1 : c.Expires < now <;> by_cases h2 : c.MaxAge < 0 <;> simp [h1, h2]

/-- C4, as stated, fails: a record whose `Expires` equals the clock reading is
valid for `IsValid` although its expiry is not strictly later than `now`. -/
theorem isValid_at_expiry_instant :
    (sample "a" "1" 5 0).IsValid 5 = true ∧
      ¬ ((5 : Time) < (sample "a" "1" 5 0).Expires ∧ 0 ≤ (sample "a" "1" 5 0).MaxAge) := by
  constructor
  · decide
  · simp [sample]

/-- C4, amended: `IsValid` holds at `now` exactly when `Expires` is not earlier
than `now` and `MaxAge` is not negative. -/
theorem isValid_iff (now : Time) (c : Cookie) :
    c.IsValid now = true ↔ now ≤ c.Expires ∧ 0 ≤ c.MaxAge := by
  rw [isValid_eq_true]
  constructor
  · rintro ⟨h1, h2⟩
    exact ⟨not_lt.mp h1, not_lt.mp h2⟩
  · rintro ⟨h1, h2⟩
    exact ⟨not_lt.mpr h1, not_lt.mpr h2⟩

/-! ## SetCookie -/

theorem setCookie_of_valid (now : Time) (cj : CookieJar) (c : Cookie)
    (h : c.IsValid now = true) :
    cj.SetCookie now c = ({ cj with cookies := cj.cookies ++ [c] }, none) := by
  simp [CookieJar.SetCookie, h]

theorem setCookie_of_invalid (now : Time) (cj : CookieJar) (c : Cookie)
    (h : c.IsValid now = false) :
    cj.SetCookie now c = (cj, some "cookie is invalid") := by
  simp [CookieJar.SetCookie, h]

/-- C2: `SetCookie` returns an error exactly when the record is invalid at the
time of the call, that is when `Expires` is before `now` or `MaxAge` is
negative; the error is "cookie is invalid" and the store is then unchanged. -/
theorem setCookie_error_iff (now : Time) (cj : CookieJar) (c : Cookie) :
    ((cj.SetCookie now c).2 ≠ none ↔ c.IsValid now = false) ∧
    ((cj.SetCookie now c).2 ≠ none ↔ (c.Expires < now ∨ c.MaxAge < 0)) ∧
    ((cj.SetCookie now c).2 ≠ none →
      (cj.SetCookie now c).2 = some "cookie is invalid" ∧
      (cj.SetCookie now c).1 = cj ∧
      (cj.SetCookie now c).1.All = cj.All) := by
  cases h : c.IsValid now
  · have hor := (isValid_eq_false now c).mp h
    rw [setCookie_of_invalid now cj c h]
    simp [hor]
  · have hor : ¬ (c.Expires < now ∨ c.MaxAge < 0) := by
      rw [← isValid_eq_false, h]; simp
    rw [setCookie_of_valid now cj c h]
    simp [hor]

/-- C7: a `SetCookie` that succeeds appends: `All` afterwards is `All` before
followed by the record, the other fields of the store are untouched, and two
successive insertions enumerate in the order they were made. -/
theorem setCookie_appends (now : Time) (cj : CookieJar) (r : Cookie)
    (h : (cj.SetCookie now r).2 = none) :
    r.IsValid now = true ∧
    (cj.SetCookie now r).1.All = cj.All ++ [r] ∧
    (cj.SetCookie now r).1.OnExpire = cj.OnExpire ∧
    (cj.SetCookie now r).1.CloseToExpire = cj.CloseToExpire ∧
    (cj.SetCookie now r).1.CloseToExpireTimeSeconds = cj.CloseToExpireTimeSeconds ∧
    (∀ (later : Time) (r2 : Cookie), ((cj.SetCookie now r).1.SetCookie later r2).2 = none →
      ((cj.SetCookie now r).1.SetCookie later r2).1.All = cj.All ++ [r, r2]) := by
  cases hv : r.IsValid now
  · rw [setCookie_of_invalid now cj r hv] at h
    simp at h
  · rw [setCookie_of_valid now cj r hv]
    refine ⟨rfl, rfl, rfl, rfl, rfl, ?_⟩
    intro later r2 h2
    cases hv2 : r2.IsValid later
    · rw [setCookie_of_invalid _ _ r2 hv2] at h2
      simp at h2
    · rw [setCookie_of_valid _ _ r2 hv2]
      simp [CookieJar.All]

/-- Witness of C7: inserting a valid record into a store of one record. -/
theorem setCookie_appends_witness :
    ((sampleJar [sample "a" "1" 100 0]).SetCookie 5 (sample "b" "2" 50 3)).1.All
      = [sample "a" "1" 100 0, sample "b" "2" 50 3] :=
  (setCookie_appends 5 (sampleJar [sample "a" "1" 100 0]) (sample "b" "2" 50 3) rfl).2.1

/-! ## Get -/

theorem getLoop_eq (now : Time) (name : String) (l : List Cookie) :
    getLoop now name l =
      match firstNamed name l with
      | none => .error "cookie not found"
      | some c => if c.IsValid now then .ok c else .error "cookie is invalid" := by
  induction l with
  | nil => rfl
  | cons c rest ih =>
    unfold getLoop firstNamed
    by_cases hn : (c.Name == name) = true
    · cases hv : c.IsValid now <;> simp [List.find?, hn, hv]
    · simp only [Bool.not_eq_true] at hn
      simp only [List.find?, hn, ih, firstNamed]
      simp

theorem firstNamed_eq_none (name : String) (l : List Cookie) :
    firstNamed name l = none ↔ ∀ c ∈ l, c.Name ≠ name := by
  simp [firstNamed, List.find?_eq_none]

/-- The record `firstNamed` finds is in the list, bears the name, and nothing
before it does. -/
theorem firstNamed_eq_some (name : String) (l : List Cookie) (c : Cookie) :
    firstNamed name l = some c ↔
      ∃ pre post, l = pre ++ c :: post ∧ c.Name = name ∧ ∀ x ∈ pre, x.Name ≠ name := by
  induction l with
  | nil => simp [firstNamed]
  | cons a rest ih =>
    by_cases hn : a.Name = name
    · have : firstNamed name (a :: rest) = some a := by simp [firstNamed, List.find?, hn]
      rw [this]
      constructor
      · intro h
        cases h
        exact ⟨[], rest, rfl, hn, by simp⟩
      · rintro ⟨pre, post, hl, _, hpre⟩
        cases pre with
        | nil => simp at hl; rw [hl.1]
        | cons b pre2 =>
          simp at hl
          exact absurd (hl.1 ▸ hn) (hpre b (by simp))
    · have hb : (a.Name == name) = false := by simp [hn]
      have : firstNamed name (a :: rest) = firstNamed name rest := by
        simp [firstNamed, List.find?, hb]
      rw [this, ih]
      constructor
      · rintro ⟨pre, post, hl, hc, hpre⟩
        refine ⟨a :: pre, post, by simp [hl], hc, ?_⟩
        intro x hx
        rcases List.mem_cons.mp hx with rfl | hx
        · exact hn
        · exact hpre x hx
      · rintro ⟨pre, post, hl, hc, hpre⟩
        cases pre with
        | nil =>
          simp at hl
          exact absurd (hl.1 ▸ hc) hn
        | cons b pre2 =>
          simp at hl
          exact ⟨pre2, post, hl.2, hc, fun x hx => hpre x (by simp [hx])⟩

theorem get_eq (now : Time) (cj : CookieJar) (name : String) :
    cj.Get now name =
      match firstNamed name cj.cookies with
      | none => .error "cookie not found"
      | some c => if c.IsValid now then .ok c else .error "cookie is invalid" :=
  getLoop_eq now name cj.cookies

theorem firstNamed_append_fresh (name : String) (l : List Cookie) (r : Cookie)
    (hfresh : ∀ c ∈ l, c.Name ≠ name) (hr : r.Name = name) :
    firstNamed name (l ++ [r]) = some r := by
  rw [firstNamed_eq_some]
  exact ⟨l, [], rfl, hr, hfresh⟩

/-- C1, as stated, fails: the store may already hold a record of the same name,
and `Get` then returns that older record, whose value differs. -/
theorem get_after_setCookie_duplicate_name :
    ((5 : Time) < (sample "a" "new" 100 0).Expires ∧ 0 ≤ (sample "a" "new" 100 0).MaxAge) ∧
    ((sampleJar [sample "a" "old" 100 0]).SetCookie 5 (sample "a" "new" 100 0)).2 = none ∧
    ((sampleJar [sample "a" "old" 100 0]).SetCookie 5 (sample "a" "new" 100 0)).1.Get 5
        (sample "a" "new" 100 0).Name = .ok (sample "a" "old" 100 0) ∧
    (sample "a" "old" 100 0).Value ≠ (sample "a" "new" 100 0).Value := by
  refine ⟨⟨by decide, by decide⟩, rfl, rfl, by decide⟩

/-- C1, amended: when the store holds no record named `r.Name`, inserting a
record `r` whose `Expires` is later than `now` and whose `MaxAge` is not
negative succeeds, and `Get r.Name` at the same instant returns `r` itself,
every field as inserted. -/
theorem get_after_setCookie (now : Time) (cj : CookieJar) (r : Cookie)
    (hexp : now < r.Expires) (hage : 0 ≤ r.MaxAge)
    (hfresh : ∀ c ∈ cj.cookies, c.Name ≠ r.Name) :
    (cj.SetCookie now r).2 = none ∧
    (cj.SetCookie now r).1.Get now r.Name = .ok r := by
  have hv : r.IsValid now = true :=
    (isValid_eq_true now r).mpr ⟨not_lt.mpr (le_of_lt hexp), not_lt.mpr hage⟩
  rw [setCookie_of_valid now cj r hv]
  refine ⟨rfl, ?_⟩
  rw [get_eq]
  simp only [firstNamed_append_fresh r.Name cj.cookies r hfresh rfl, hv, if_true]

/-- Witness of C1 (amended): a record named "b" put into a store holding "a". -/
theorem get_after_setCookie_witness :
    ((sampleJar [sample "a" "1" 100 0]).SetCookie 5 (sample "b" "2" 50 3)).2 = none ∧
    ((sampleJar [sample "a" "1" 100 0]).SetCookie 5 (sample "b" "2" 50 3)).1.Get 5
        (sample "b" "2" 50 3).Name = .ok (sample "b" "2" 50 3) :=
  get_after_setCookie 5 (sampleJar [sample "a" "1" 100 0]) (sample "b" "2" 50 3)
    (by decide) (by decide) (by decide)

/-- C3, as stated, fails in its last part: a stored record may be past its
`Expires` while `Get` on its name succeeds, because an earlier record bears the
same name and is still valid. -/
theorem get_ok_with_expired_later_duplicate :
    sample "a" "2" 3 0 ∈ (sampleJar [sample "a" "1" 100 0, sample "a" "2" 3 0]).cookies ∧
    (sample "a" "2" 3 0).Expires < (5 : Time) ∧
    (sampleJar [sample "a" "1" 100 0, sample "a" "2" 3 0]).Get 5 (sample "a" "2" 3 0).Name
      = .ok (sample "a" "1" 100 0) := by
  refine ⟨by simp [sampleJar], by decide, rfl⟩

/-- C3, amended: `Get` returns a record only if it is the first record of that
name in store order and is valid at `now`; it returns "cookie not found"
exactly when no record bears the name, and "cookie is invalid" exactly when
the first record of that name is invalid at `now`.  In particular, once `now`
is past the `Expires` of the first record of that name, `Get` returns an
error although the record is still stored. -/
theorem get_first_match (now : Time) (cj : CookieJar) (name : String) :
    (∀ c, cj.Get now name = .ok c →
      firstNamed name cj.cookies = some c ∧ c.IsValid now = true) ∧
    (cj.Get now name = .error "cookie not found" ↔ ∀ c ∈ cj.cookies, c.Name ≠ name) ∧
    (cj.Get now name = .error "cookie is invalid" ↔
      ∃ c, firstNamed name cj.cookies = some c ∧ c.IsValid now = false) ∧
    (∀ c, firstNamed name cj.cookies = some c → c.Expires < now →
      cj.Get now name = .error "cookie is invalid") := by
  have hne : ("cookie is invalid" : String) ≠ "cookie not found" := by decide
  rw [get_eq, ← firstNamed_eq_none]
  cases hf : firstNamed name cj.cookies with
  | none => simp [hne]
  | some c0 =>
    cases hv : c0.IsValid now
    · simp [hv, hne.symm]
    · have hnlt : ¬ c0.Expires < now := ((isValid_eq_true now c0).mp hv).1
      simp only [hv, if_true, Option.some.injEq]
      refine ⟨?_, by simp, ?_, ?_⟩
      · intro c hc
        cases hc
        exact ⟨rfl, hv⟩
      · constructor
        · intro h; cases h
        · rintro ⟨c, hc, hcv⟩
          rw [← hc, hv] at hcv
          cases hcv
      · intro c hc hlt
        rw [← hc] at hlt
        exact absurd hlt hnlt

/-! ## DelCookie and DelCookieIndex -/

theorem delCookieLoop_none (name : String) (all : List Cookie) (i : Nat) (rest : List Cookie)
    (h : ∀ c ∈ rest, c.Name ≠ name) : delCookieLoop name all i rest = none := by
  induction rest generalizing i with
  | nil => rfl
  | cons c rest ih =>
    have hb : (c.Name == name) = false := by simpa using h c (by simp)
    simp only [delCookieLoop, hb]
    exact ih (i + 1) (fun x hx => h x (by simp [hx]))

theorem delCookieLoop_some (name : String) (pre mid post : List Cookie) (c : Cookie)
    (hc : c.Name = name) (hmid : ∀ x ∈ mid, x.Name ≠ name) :
    delCookieLoop name (pre ++ (mid ++ c :: post)) pre.length (mid ++ c :: post)
      = some (pre ++ mid ++ post) := by
  induction mid generalizing pre with
  | nil =>
    have hb : (c.Name == name) = true := by simp [hc]
    simp [delCookieLoop, hb]
  | cons m mid ih =>
    have hb : (m.Name == name) = false := by simpa using hmid m (by simp)
    have := ih (pre ++ [m]) (fun x hx => hmid x (by simp [hx]))
    simp only [List.cons_append, delCookieLoop, hb]
    simpa using this

/-- C8: `DelCookie name` returns an error ("cookie not found") exactly when no
record bears the name, and the store is then unchanged; otherwise the store
splits as `pre ++ c :: post` with `c` the first record named `name`, and the
store afterwards is `pre ++ post`: only that record is gone, later records of
the same name included in `post` stay, the order is kept. -/
theorem delCookie_spec (cj : CookieJar) (name : String) :
    ((cj.DelCookie name).2 ≠ none ↔ ∀ c ∈ cj.cookies, c.Name ≠ name) ∧
    ((cj.DelCookie name).2 ≠ none →
      (cj.DelCookie name).2 = some "cookie not found" ∧ (cj.DelCookie name).1 = cj) ∧
    ((cj.DelCookie name).2 = none →
      ∃ pre c post, cj.All = pre ++ c :: post ∧ c.Name = name ∧
        (∀ x ∈ pre, x.Name ≠ name) ∧
        (cj.DelCookie name).1.All = pre ++ post ∧
        (cj.DelCookie name).1 = { cj with cookies := pre ++ post }) := by
  cases hf : firstNamed name cj.cookies with
  | none =>
    have hall := (firstNamed_eq_none name cj.cookies).mp hf
    have hloop := delCookieLoop_none name cj.cookies 0 cj.cookies hall
    simp [CookieJar.DelCookie, hloop]
    exact hall
  | some c =>
    obtain ⟨pre, post, hl, hc, hpre⟩ := (firstNamed_eq_some name cj.cookies c).mp hf
    have hloop : delCookieLoop name cj.cookies 0 cj.cookies = some (pre ++ post) := by
      have := delCookieLoop_some name [] pre post c hc hpre
      simpa [hl] using this
    have hex : ∃ x ∈ cj.cookies, x.Name = name := ⟨c, by simp [hl], hc⟩
    simp only [CookieJar.DelCookie, hloop, CookieJar.All]
    refine ⟨?_, ?_, ?_⟩
    · simp only [ne_eq, not_true_eq_false, false_iff]
      intro hno
      obtain ⟨x, hx, hxn⟩ := hex
      exact hno x hx hxn
    · intro h; exact absurd rfl h
    · intro _
      exact ⟨pre, c, post, hl, hc, hpre, rfl, rfl⟩

/-- C9: `DelCookieIndex index` returns an error ("index out of range") exactly
when `index < 0` or `index >= len`, and the store is then unchanged; otherwise
the store splits as `pre ++ c :: post` with `pre` of length `index`, the store
afterwards is `pre ++ post`, and it is one record shorter. -/
theorem delCookieIndex_spec (cj : CookieJar) (index : Int) :
    ((cj.DelCookieIndex index).2 ≠ none ↔ (index < 0 ∨ index ≥ (cj.All.length : Int))) ∧
    ((cj.DelCookieIndex index).2 ≠ none →
      (cj.DelCookieIndex index).2 = some "index out of range" ∧
      (cj.DelCookieIndex index).1 = cj) ∧
    ((cj.DelCookieIndex index).2 = none →
      ∃ pre c post, cj.All = pre ++ c :: post ∧ (pre.length : Int) = index ∧
        (cj.DelCookieIndex index).1.All = pre ++ post ∧
        (cj.DelCookieIndex index).1 = { cj with cookies := pre ++ post } ∧
        (cj.DelCookieIndex index).1.All.length + 1 = cj.All.length) := by
  by_cases hout : index < 0 ∨ index ≥ (cj.cookies.length : Int)
  · have hb : (decide (index < 0) || decide (index ≥ (cj.cookies.length : Int))) = true := by
      simpa using hout
    simp [CookieJar.DelCookieIndex, hb, CookieJar.All, hout]
  · have hb : (decide (index < 0) || decide (index ≥ (cj.cookies.length : Int))) = false := by
      simpa using hout
    have h0 : 0 ≤ index := by omega
    have hlt : index.toNat < cj.cookies.length := by omega
    have hsplit : cj.cookies = cj.cookies.take index.toNat ++
        cj.cookies[index.toNat] :: cj.cookies.drop (index.toNat + 1) := by
      rw [← List.drop_eq_getElem_cons hlt, List.take_append_drop]
    simp only [CookieJar.DelCookieIndex, hb, CookieJar.All]
    refine ⟨?_, ?_, ?_⟩
    · simp only [Bool.false_eq_true, if_false, ne_eq, not_true_eq_false, false_iff]
      exact hout
    · intro h; simp at h
    · intro _
      refine ⟨cj.cookies.take index.toNat, cj.cookies[index.toNat],
        cj.cookies.drop (index.toNat + 1), hsplit, ?_, ?_, ?_, ?_⟩
      · simp only [List.length_take]; omega
      · simp
      · simp
      · simp only [Bool.false_eq_true, if_false, List.length_append, List.length_take,
          List.length_drop]
        omega

/-! ## AsMap -/

theorem asMapStep_eq (now : Time) (names : List String) (kv : StringMap) (c : Cookie) :
    asMapStep now names kv c = if selected now names c then kv.set c.Name c.Value else kv := by
  unfold asMapStep selected
  cases hv : c.IsValid now
  · simp
  · cases names with
    | nil => simp
    | cons n ns =>
      cases hany : (n :: ns).any (fun name => c.Name == name) <;> simp [hany]

/-- What the loop of `AsMap` leaves under the key `k`: the value of the last
selected record named `k`, or what the map held before. -/
theorem asMap_fold (now : Time) (names : List String) (l : List Cookie) (kv : StringMap)
    (k : String) :
    (l.foldl (asMapStep now names) kv) k =
      match l.reverse.find? (fun c => selected now names c && c.Name == k) with
      | some c => some c.Value
      | none => kv k := by
  induction l using List.reverseRecOn with
  | nil => rfl
  | append_singleton init c ih =>
    rw [List.foldl_append, List.reverse_append]
    simp only [List.foldl_cons, List.foldl_nil, List.reverse_cons, List.reverse_nil,
      List.nil_append, List.singleton_append, List.find?_cons, asMapStep_eq]
    cases hs : selected now names c
    · simpa using ih
    · by_cases hk : c.Name = k
      · simp [hk, StringMap.set]
      · have hk2 : ¬ k = c.Name := fun h => hk h.symm
        have hb : (c.Name == k) = false := by simpa using hk
        simp only [hb, hk2, StringMap.set, if_true, if_false, Bool.true_and]
        exact ih

theorem lastValidNamed_eq_some (now : Time) (name : String) (l : List Cookie) (c : Cookie) :
    lastValidNamed now name l = some c ↔
      c.IsValid now = true ∧ c.Name = name ∧
      ∃ pre post, l = pre ++ c :: post ∧
        ∀ x ∈ post, ¬ (x.IsValid now = true ∧ x.Name = name) := by
  unfold lastValidNamed
  rw [List.find?_eq_some]
  constructor
  · rintro ⟨hp, as, bs, hrev, has⟩
    have hp2 : c.IsValid now = true ∧ c.Name = name := by simpa using hp
    refine ⟨hp2.1, hp2.2, bs.reverse, as.reverse, ?_, ?_⟩
    · have := congrArg List.reverse hrev
      simpa using this
    · rintro x hx ⟨h1, h2⟩
      have := has x (List.mem_reverse.mp hx)
      simp [h1, h2] at this
  · rintro ⟨hv, hn, pre, post, hl, hpost⟩
    refine ⟨by simp [hv, hn], post.reverse, pre.reverse, by simp [hl], ?_⟩
    intro x hx
    have h := hpost x (List.mem_reverse.mp hx)
    cases hxv : x.IsValid now
    · simp
    · have : ¬ x.Name = name := fun hn => h ⟨hxv, hn⟩
      simp [this]

theorem lastValidNamed_isSome (now : Time) (name : String) (l : List Cookie) :
    (∃ c, lastValidNamed now name l = some c) ↔
      ∃ c ∈ l, c.Name = name ∧ c.IsValid now = true := by
  unfold lastValidNamed
  constructor
  · rintro ⟨c, hc⟩
    have hmem := List.mem_of_find?_eq_some hc
    have hp := List.find?_some hc
    simp only [Bool.and_eq_true, beq_iff_eq] at hp
    exact ⟨c, List.mem_reverse.mp hmem, hp.2, hp.1⟩
  · rintro ⟨c, hmem, hn, hv⟩
    cases hf : l.reverse.find? (fun c => c.IsValid now && c.Name == name) with
    | some d => exact ⟨d, rfl⟩
    | none =>
      rw [List.find?_eq_none] at hf
      have := hf c (List.mem_reverse.mpr hmem)
      simp [hn, hv] at this

theorem asMap_nil_eq (now : Time) (cj : CookieJar) (k : String) :
    cj.AsMap now [] k = (lastValidNamed now k cj.cookies).map (fun c => c.Value) := by
  unfold CookieJar.AsMap lastValidNamed
  rw [asMap_fold]
  have hsel : (fun c : Cookie => selected now [] c && c.Name == k)
      = (fun c : Cookie => c.IsValid now && c.Name == k) := by
    funext c; simp [selected]
  rw [hsel]
  cases List.find? (fun c : Cookie => c.IsValid now && c.Name == k) cj.cookies.reverse <;> rfl

theorem asMap_names_eq (now : Time) (cj : CookieJar) (names : List String) (hne : names ≠ [])
    (k : String) :
    cj.AsMap now names k = if k ∈ names then cj.AsMap now [] k else none := by
  rw [asMap_nil_eq]
  unfold CookieJar.AsMap lastValidNamed
  rw [asMap_fold]
  have hlen : (names.length == 0) = false := by
    cases names with
    | nil => exact absurd rfl hne
    | cons a as => rfl
  by_cases hk : k ∈ names
  · have hsel : (fun c : Cookie => selected now names c && c.Name == k)
        = (fun c : Cookie => c.IsValid now && c.Name == k) := by
      funext c
      by_cases hck : c.Name = k
      · simp [selected, hlen, hck, hk]
      · have hb : (c.Name == k) = false := by simpa using hck
        rw [hb]; simp
    rw [hsel, if_pos hk]
    cases List.find? (fun c : Cookie => c.IsValid now && c.Name == k) cj.cookies.reverse <;> rfl
  · have hnone : cj.cookies.reverse.find? (fun c => selected now names c && c.Name == k)
        = none := by
      rw [List.find?_eq_none]
      intro c _ hc
      simp only [selected, hlen, Bool.false_or, Bool.and_eq_true, beq_iff_eq,
        List.any_eq_true] at hc
      obtain ⟨⟨_, n, hn, hcn⟩, hck⟩ := hc
      exact hk (hck ▸ hcn ▸ hn)
    rw [hnone, if_neg hk]

theorem asMap_nil_some_iff (now : Time) (cj : CookieJar) (n v : String) :
    cj.AsMap now [] n = some v ↔
      ∃ c, lastValidNamed now n cj.cookies = some c ∧ c.Value = v := by
  rw [asMap_nil_eq]
  simp [Option.map_eq_some']

theorem asMap_nil_keys (now : Time) (cj : CookieJar) (n : String) :
    (∃ v, cj.AsMap now [] n = some v) ↔
      ∃ c ∈ cj.cookies, c.Name = n ∧ c.IsValid now = true := by
  rw [← lastValidNamed_isSome]
  constructor
  · rintro ⟨v, hv⟩
    obtain ⟨c, hc, _⟩ := (asMap_nil_some_iff now cj n v).mp hv
    exact ⟨c, hc⟩
  · rintro ⟨c, hc⟩
    exact ⟨c.Value, (asMap_nil_some_iff now cj n c.Value).mpr ⟨c, hc, rfl⟩⟩

/-- C5, as stated, fails: with two valid records of one name, `AsMap()` holds
the value of the later one only, so the pair of the earlier one is missing. -/
theorem asMap_drops_earlier_duplicate :
    (∃ c ∈ (sampleJar [sample "a" "1" 100 0, sample "a" "2" 100 0]).cookies,
      c.Name = "a" ∧ c.Value = "1" ∧ c.IsValid 5 = true) ∧
    (sampleJar [sample "a" "1" 100 0, sample "a" "2" 100 0]).AsMap 5 [] "a" = some "2" ∧
    (sampleJar [sample "a" "1" 100 0, sample "a" "2" 100 0]).AsMap 5 [] "a" ≠ some "1" := by
  refine ⟨⟨sample "a" "1" 100 0, by simp [sampleJar], rfl, rfl, by decide⟩, ?_, ?_⟩
  · rw [asMap_nil_eq]; rfl
  · rw [asMap_nil_eq]; decide

/-- C5, amended: `AsMap()` holds the pair `(n, v)` exactly when the last record
in store order that is named `n` and valid at that instant has value `v`.
Hence every pair of the map is the name and value of a valid record, and the
keys of the map are exactly the names of the valid records. -/
theorem asMap_all (now : Time) (cj : CookieJar) :
    (∀ n v, cj.AsMap now [] n = some v ↔
      ∃ c, lastValidNamed now n cj.cookies = some c ∧ c.Value = v) ∧
    (∀ n v, cj.AsMap now [] n = some v →
      ∃ c ∈ cj.cookies, c.Name = n ∧ c.Value = v ∧ c.IsValid now = true) ∧
    (∀ n, (∃ v, cj.AsMap now [] n = some v) ↔
      ∃ c ∈ cj.cookies, c.Name = n ∧ c.IsValid now = true) := by
  refine ⟨asMap_nil_some_iff now cj, ?_, asMap_nil_keys now cj⟩
  intro n v h
  obtain ⟨c, hc, hv⟩ := (asMap_nil_some_iff now cj n v).mp h
  obtain ⟨hval, hname, pre, post, hl, _⟩ := (lastValidNamed_eq_some now n cj.cookies c).mp hc
  exact ⟨c, by simp [hl], hname, hv, hval⟩

/-- C6: for a non-empty list of names, `AsMap(names...)` is `AsMap()` restricted
to the keys occurring in `names`; each key of the result is in `names` and is
the name of a record valid at that instant; each name of `names` that has a
valid record is a key; and a name all of whose records are invalid is not a
key, with or without a filter. -/
theorem asMap_filtered (now : Time) (cj : CookieJar) (names : List String)
    (hne : names ≠ []) :
    (∀ k, cj.AsMap now names k = if k ∈ names then cj.AsMap now [] k else none) ∧
    (∀ k v, cj.AsMap now names k = some v →
      k ∈ names ∧ ∃ c ∈ cj.cookies, c.Name = k ∧ c.IsValid now = true) ∧
    (∀ k ∈ names, (∃ c ∈ cj.cookies, c.Name = k ∧ c.IsValid now = true) →
      ∃ v, cj.AsMap now names k = some v) ∧
    (∀ k, (∀ c ∈ cj.cookies, c.Name = k → c.IsValid now = false) →
      cj.AsMap now names k = none ∧ cj.AsMap now [] k = none) := by
  have hkeys := asMap_nil_keys now cj
  have hnone : ∀ k, (∀ c ∈ cj.cookies, c.Name = k → c.IsValid now = false) →
      cj.AsMap now [] k = none := by
    intro k hk
    cases h : cj.AsMap now [] k with
    | none => rfl
    | some v =>
      obtain ⟨c, hc, hn, hv⟩ := (hkeys k).mp ⟨v, h⟩
      rw [hk c hc hn] at hv
      cases hv
  refine ⟨asMap_names_eq now cj names hne, ?_, ?_, ?_⟩
  · intro k v h
    rw [asMap_names_eq now cj names hne] at h
    by_cases hk : k ∈ names
    · rw [if_pos hk] at h
      exact ⟨hk, (hkeys k).mp ⟨v, h⟩⟩
    · rw [if_neg hk] at h
      cases h
  · intro k hk hex
    rw [asMap_names_eq now cj names hne, if_pos hk]
    exact (hkeys k).mpr hex
  · intro k hk
    refine ⟨?_, hnone k hk⟩
    rw [asMap_names_eq now cj names hne, hnone k hk]
    simp

/-- Witness of C6: a store with a valid "a", an expired "b" and a valid "c",
filtered by the names "a" and "b". -/
theorem asMap_filtered_witness :
    (∃ v, (sampleJar [sample "a" "1" 100 0, sample "b" "2" 3 0, sample "c" "3" 100 0]).AsMap 5
      ["a", "b"] "a" = some v) ∧
    (sampleJar [sample "a" "1" 100 0, sample "b" "2" 3 0, sample "c" "3" 100 0]).AsMap 5
      ["a", "b"] "b" = none :=
  ⟨(asMap_filtered 5 (sampleJar [sample "a" "1" 100 0, sample "b" "2" 3 0, sample "c" "3" 100 0])
      ["a", "b"] (by simp)).2.2.1 "a" (by simp)
      ⟨sample "a" "1" 100 0, by simp [sampleJar], rfl, by decide⟩,
   ((asMap_filtered 5 (sampleJar [sample "a" "1" 100 0, sample "b" "2" 3 0, sample "c" "3" 100 0])
      ["a", "b"] (by simp)).2.2.2 "b" (by decide)).1⟩

/-! ## The sweeper -/

/-- On the slice `cj.cookies`, the deletion made during a sweep is the one
`CookieJar.DelCookieIndex` makes: out of range nothing changes, in range the
slice becomes `cookies[:index]` followed by `cookies[index+1:]`. -/
theorem sweep_delCookieIndex_live (s : Sweep) (index : Int) :
    (s.DelCookieIndex index).live =
      if index < 0 || index ≥ (s.len : Int) then s.live
      else s.live.take index.toNat ++ s.live.drop (index.toNat + 1) := by
  unfold Sweep.DelCookieIndex
  cases h : (decide (index < 0) || decide (index ≥ (s.len : Int)))
  · simp only [Bool.false_eq_true, if_false, Sweep.live]
    generalize List.take index.toNat (List.take s.len s.array)
      ++ List.drop (index.toNat + 1) (List.take s.len s.array) = appended
    rw [List.take_append_of_le_length (le_refl _), List.take_length]
  · simp

/-- C10, on the code: in a store made by `NewCookieJar` (threshold 60, `OnExpire`
set) a record with `MaxAge = 2` takes the near-expiry branch of `collect` at
every sweep, which does not decrement.  After the sweep one second later
`MaxAge` is still 2; after the second sweep `Get` still returns the record and
`OnExpire` was never invoked. -/
theorem collect_maxAge_two_never_counts_down :
    countdownJar.CloseToExpireTimeSeconds = 60 ∧
    countdownJar.All = [sample "a" "1" 1000000000000 2] ∧
    (countdownJar.collectTick 1000000000).1.All = [sample "a" "1" 1000000000000 2] ∧
    (countdownJar.collect [1000000000, 2000000000]).1.Get 2000000000 "a"
      = .ok (sample "a" "1" 1000000000000 2) ∧
    (countdownJar.collect [1000000000, 2000000000]).2 = [] := by
  exact ⟨rfl, rfl, by decide, rfl, by decide⟩

/-- C11, on the code: in a store of two expired records the sweep deletes the
first, which shortens the slice to one record; at index 1 the loop still reads
the second record from the old backing array and invokes `OnExpire` on it, but
`DelCookieIndex(1)` is out of range and removes nothing.  The record is in the
store after that sweep, and the next sweep invokes `OnExpire` on it again. -/
theorem onExpire_fires_without_eviction :
    ((sampleJar [sample "a" "1" 500000000 0, sample "c" "3" 500000000 0]).collectTick
        1000000000).2
      = [Event.OnExpire (sample "a" "1" 500000000 0),
         Event.OnExpire (sample "c" "3" 500000000 0)] ∧
    ((sampleJar [sample "a" "1" 500000000 0, sample "c" "3" 500000000 0]).collectTick
        1000000000).1.All
      = [sample "c" "3" 500000000 0] ∧
    ((sampleJar [sample "a" "1" 500000000 0, sample "c" "3" 500000000 0]).collect
        [1000000000, 2000000000]).2
      = [Event.OnExpire (sample "a" "1" 500000000 0),
         Event.OnExpire (sample "c" "3" 500000000 0),
         Event.OnExpire (sample "c" "3" 500000000 0)] ∧
    ((sampleJar [sample "a" "1" 500000000 0, sample "c" "3" 500000000 0]).collect
        [1000000000, 2000000000]).1.All = [] := by
  exact ⟨by decide, by decide, by decide, by decide⟩

/-- C17, on the code: of three expired records the sweep removes the first and
the third only.  Deleting the first moves the second into the cell the loop
has just left, so the second is never inspected: it stays in the store and
`OnExpire` is not invoked on it, while the third is reported twice. -/
theorem sweep_skips_record_after_eviction :
    (sample "b" "2" 500000000 0).IsValid 1000000000 = false ∧
    ((sampleJar [sample "a" "1" 500000000 0, sample "b" "2" 500000000 0,
        sample "c" "3" 500000000 0]).collectTick 1000000000).1.All
      = [sample "b" "2" 500000000 0] ∧
    ((sampleJar [sample "a" "1" 500000000 0, sample "b" "2" 500000000 0,
        sample "c" "3" 500000000 0]).collectTick 1000000000).2
      = [Event.OnExpire (sample "a" "1" 500000000 0),
         Event.OnExpire (sample "c" "3" 500000000 0),
         Event.OnExpire (sample "c" "3" 500000000 0)] := by
  exact ⟨by decide, by decide, by decide⟩

/-- C18, on the code: behind an expired record stand two valid records with
`MaxAge = 500`, far from the threshold of 60 by countdown and by clock.  The
sweep removes the expired record, never inspects the first of the two, whose
`MaxAge` stays 500, and inspects the second twice, whose `MaxAge` ends at 498. -/
theorem sweep_decrements_twice_or_never :
    ((sample "b" "2" 1000000000000 500).IsValid 1000000000 = true ∧
      (sample "b" "2" 1000000000000 500).MaxAge ≠ 1 ∧
      (sample "b" "2" 1000000000000 500).MaxAge - 1 > 60 ∧
      (sample "b" "2" 1000000000000 500).Expires > 1000000000 + 60 * 1000000000) ∧
    ((sampleJar [sample "a" "1" 500000000 0, sample "b" "2" 1000000000000 500,
        sample "c" "3" 1000000000000 500]).collectTick 1000000000).1.All
      = [sample "b" "2" 1000000000000 500, sample "c" "3" 1000000000000 498] := by
  exact ⟨by decide, by decide⟩

/-- C19, on the code: a valid, not yet notified record with `MaxAge = 0` whose
`Expires` lies 1000 seconds ahead is reported to `CloseToExpire` by the sweep of
a jar with the threshold 60, because the test `MaxAge-1 <= 60` holds of `-1`. -/
theorem nearExpiry_fires_for_unset_maxAge :
    (sample "a" "1" 1000000000000 0).IsValid 1000000000 = true ∧
    ¬ ((sample "a" "1" 1000000000000 0).Expires < 1000000000 + 60 * 1000000000) ∧
    (sampleJar []).CloseToExpireTimeSeconds = 60 ∧
    ((sampleJar [sample "a" "1" 1000000000000 0]).collectTick 1000000000).2
      = [Event.CloseToExpire (sample "a" "1" 1000000000000 0)] := by
  exact ⟨by decide, by decide, rfl, by decide⟩

/-! ## The backend variant -/

theorem wasm_delCookieLoop_eq (name : String) (all : List Cookie) (i : Nat)
    (rest : List Cookie) :
    Wasm.delCookieLoop name all i rest =
      (delCookieLoop name all i rest).map (fun l => (l, [SetDOMCookie name ""])) := by
  induction rest generalizing i with
  | nil => rfl
  | cons c rest ih =>
    unfold Wasm.delCookieLoop delCookieLoop
    cases hn : (c.Name == name)
    · simpa using ih (i + 1)
    · simp

/-- C14: on the same store, with the same arguments and at the same instant,
`SetCookie`, `DelCookie` and `DelCookieIndex` of the js/wasm variant return the
same error as those of the default build and leave the same store; the variant
assigns to `document.cookie` exactly when the call succeeds. -/
theorem wasm_refines_default (now : Time) (cj : CookieJar) (cookie : Cookie)
    (name : String) (index : Int) :
    ((Wasm.SetCookie now cj cookie).jar = (cj.SetCookie now cookie).1 ∧
      (Wasm.SetCookie now cj cookie).err = (cj.SetCookie now cookie).2 ∧
      (Wasm.SetCookie now cj cookie).dom =
        if (cj.SetCookie now cookie).2 = none then [SetDOMCookie cookie.Name cookie.Value]
        else []) ∧
    ((Wasm.DelCookie cj name).jar = (cj.DelCookie name).1 ∧
      (Wasm.DelCookie cj name).err = (cj.DelCookie name).2 ∧
      (Wasm.DelCookie cj name).dom =
        if (cj.DelCookie name).2 = none then [SetDOMCookie name ""] else []) ∧
    ((Wasm.DelCookieIndex cj index).jar = (cj.DelCookieIndex index).1 ∧
      (Wasm.DelCookieIndex cj index).err = (cj.DelCookieIndex index).2 ∧
      ((cj.DelCookieIndex index).2 ≠ none → (Wasm.DelCookieIndex cj index).dom = []) ∧
      ((cj.DelCookieIndex index).2 = none →
        ∃ c, cj.cookies[index.toNat]? = some c ∧
          (Wasm.DelCookieIndex cj index).dom = [SetDOMCookie c.Name ""])) := by
  refine ⟨?_, ?_, ?_⟩
  · unfold Wasm.SetCookie CookieJar.SetCookie
    cases cookie.IsValid now <;> simp
  · unfold Wasm.DelCookie CookieJar.DelCookie
    rw [wasm_delCookieLoop_eq]
    cases delCookieLoop name cj.cookies 0 cj.cookies <;> simp
  · unfold Wasm.DelCookieIndex CookieJar.DelCookieIndex
    by_cases hout : index < 0 ∨ index ≥ (cj.cookies.length : Int)
    · have hb : (decide (index < 0) || decide (index ≥ (cj.cookies.length : Int))) = true := by
        simpa using hout
      simp [hb]
    · have hb : (decide (index < 0) || decide (index ≥ (cj.cookies.length : Int))) = false := by
        simpa using hout
      have hlt : index.toNat < cj.cookies.length := by omega
      have hget : cj.cookies[index.toNat]? = some cj.cookies[index.toNat] :=
        List.getElem?_eq_getElem hlt
      simp [hb, hget]

/-! ## SetHTTPCookies -/

theorem setHTTPCookie_of_valid (now : Time) (cj : CookieJar) (c : HTTPCookie)
    (h : c.adapt.IsValid now = true) :
    cj.SetHTTPCookie now c = ({ cj with cookies := cj.cookies ++ [c.adapt] }, none) :=
  setCookie_of_valid now cj c.adapt h

theorem setHTTPCookie_of_invalid (now : Time) (cj : CookieJar) (c : HTTPCookie)
    (h : c.adapt.IsValid now = false) :
    cj.SetHTTPCookie now c = (cj, some "cookie is invalid") :=
  setCookie_of_invalid now cj c.adapt h

/-- The loop, started at index `i`, on cookies that are all valid when their
turn comes: every one is adapted and appended. -/
theorem setHTTPCookiesLoop_all_valid (clock : Nat → Time) (i : Nat) (cj : CookieJar)
    (rest : List HTTPCookie)
    (h : ∀ (j : Nat) (c : HTTPCookie), rest[j]? = some c → c.adapt.IsValid (clock (i + j)) = true) :
    setHTTPCookiesLoop clock i cj rest
      = ({ cj with cookies := cj.cookies ++ rest.map HTTPCookie.adapt }, none) := by
  induction rest generalizing i cj with
  | nil => simp [setHTTPCookiesLoop]
  | cons c rest ih =>
    have hc : c.adapt.IsValid (clock i) = true := by simpa using h 0 c (by simp)
    have hrest : ∀ (j : Nat) (d : HTTPCookie), rest[j]? = some d → d.adapt.IsValid (clock (i + 1 + j)) = true := by
      intro j d hd
      have := h (j + 1) d (by simpa using hd)
      rwa [show i + (j + 1) = i + 1 + j by omega] at this
    simp only [setHTTPCookiesLoop, setHTTPCookie_of_valid _ _ _ hc]
    rw [ih (i + 1) _ hrest]
    simp

/-- The loop, started at index `i`, on cookies of which `bad` is the first to
be invalid when its turn comes: the cookies before it are appended, the loop
returns the error of `bad`, and nothing of `bad :: post` is inserted. -/
theorem setHTTPCookiesLoop_first_invalid (clock : Nat → Time) (i : Nat) (cj : CookieJar)
    (pre : List HTTPCookie) (bad : HTTPCookie) (post : List HTTPCookie)
    (hpre : ∀ (j : Nat) (c : HTTPCookie), pre[j]? = some c → c.adapt.IsValid (clock (i + j)) = true)
    (hbad : bad.adapt.IsValid (clock (i + pre.length)) = false) :
    setHTTPCookiesLoop clock i cj (pre ++ bad :: post)
      = ({ cj with cookies := cj.cookies ++ pre.map HTTPCookie.adapt },
          some "cookie is invalid") := by
  induction pre generalizing i cj with
  | nil =>
    have hb : bad.adapt.IsValid (clock i) = false := by simpa using hbad
    simp [setHTTPCookiesLoop, setHTTPCookie_of_invalid _ _ _ hb]
  | cons c pre ih =>
    have hc : c.adapt.IsValid (clock i) = true := by simpa using hpre 0 c (by simp)
    have hrest : ∀ (j : Nat) (d : HTTPCookie), pre[j]? = some d → d.adapt.IsValid (clock (i + 1 + j)) = true := by
      intro j d hd
      have := hpre (j + 1) d (by simpa using hd)
      rwa [show i + (j + 1) = i + 1 + j by omega] at this
    have hbad2 : bad.adapt.IsValid (clock (i + 1 + pre.length)) = false := by
      rwa [show i + (c :: pre).length = i + 1 + pre.length by simp; omega] at hbad
    rw [List.cons_append]
    simp only [setHTTPCookiesLoop, setHTTPCookie_of_valid _ _ _ hc]
    rw [ih (i + 1) _ hrest hbad2]
    simp

theorem setHTTPCookiesLoop_error_iff (clock : Nat → Time) (i : Nat) (cj : CookieJar)
    (rest : List HTTPCookie) :
    (setHTTPCookiesLoop clock i cj rest).2 ≠ none ↔
      ∃ (j : Nat) (c : HTTPCookie), rest[j]? = some c ∧ c.adapt.IsValid (clock (i + j)) = false := by
  induction rest generalizing i cj with
  | nil => simp [setHTTPCookiesLoop]
  | cons c rest ih =>
    cases hc : c.adapt.IsValid (clock i)
    · simp only [setHTTPCookiesLoop, setHTTPCookie_of_invalid _ _ _ hc]
      simp only [ne_eq, reduceCtorEq, not_false_eq_true, true_iff]
      exact ⟨0, c, by simp, by simpa using hc⟩
    · simp only [setHTTPCookiesLoop, setHTTPCookie_of_valid _ _ _ hc]
      rw [ih]
      constructor
      · rintro ⟨j, d, hd, hv⟩
        refine ⟨j + 1, d, by simpa using hd, ?_⟩
        rwa [show i + (j + 1) = i + 1 + j by omega]
      · rintro ⟨j, d, hd, hv⟩
        cases j with
        | zero =>
          simp only [List.getElem?_cons_zero, Option.some.injEq] at hd
          subst hd
          rw [Nat.add_zero, hc] at hv
          cases hv
        | succ j =>
          refine ⟨j, d, by simpa using hd, ?_⟩
          rwa [show i + (j + 1) = i + 1 + j by omega] at hv

/-- C15: `SetHTTPCookies` returns an error exactly when some cookie of the
sequence adapts to a record that is invalid when its turn comes.  If `bad` is
the first such cookie, of `pre ++ bad :: post`, the error is the one
`SetHTTPCookie` returns for `bad`, and the store afterwards is the store before
followed by the adapted records of `pre`, in order; nothing of `bad :: post` is
inserted.  If there is none, all cookies are appended and no error is returned.
An adapted record has the ten attributes of the cookie and its latch unset. -/
theorem setHTTPCookies_spec (clock : Nat → Time) (cj : CookieJar) (cookies : List HTTPCookie) :
    ((cj.SetHTTPCookies clock cookies).2 ≠ none ↔
      ∃ (i : Nat) (c : HTTPCookie), cookies[i]? = some c ∧ c.adapt.IsValid (clock i) = false) ∧
    (∀ pre bad post, cookies = pre ++ bad :: post →
      (∀ (i : Nat) (c : HTTPCookie), pre[i]? = some c → c.adapt.IsValid (clock i) = true) →
      bad.adapt.IsValid (clock pre.length) = false →
        (cj.SetHTTPCookies clock cookies).2
          = (CookieJar.SetHTTPCookie (clock pre.length)
              { cj with cookies := cj.cookies ++ pre.map HTTPCookie.adapt } bad).2 ∧
        (cj.SetHTTPCookies clock cookies).2 = some "cookie is invalid" ∧
        (cj.SetHTTPCookies clock cookies).1.All = cj.All ++ pre.map HTTPCookie.adapt ∧
        (cj.SetHTTPCookies clock cookies).1
          = { cj with cookies := cj.cookies ++ pre.map HTTPCookie.adapt }) ∧
    ((∀ (i : Nat) (c : HTTPCookie), cookies[i]? = some c → c.adapt.IsValid (clock i) = true) →
        (cj.SetHTTPCookies clock cookies).2 = none ∧
        (cj.SetHTTPCookies clock cookies).1.All = cj.All ++ cookies.map HTTPCookie.adapt) ∧
    (∀ c : HTTPCookie, c.adapt.Name = c.Name ∧ c.adapt.Value = c.Value ∧
      c.adapt.Path = c.Path ∧ c.adapt.Domain = c.Domain ∧ c.adapt.Expires = c.Expires ∧
      c.adapt.MaxAge = c.MaxAge ∧ c.adapt.Secure = c.Secure ∧
      c.adapt.HttpOnly = c.HttpOnly ∧ c.adapt.SameSite = c.SameSite ∧ c.adapt.Raw = c.Raw ∧
      c.adapt.CalledCloseToExpire = false) := by
  refine ⟨?_, ?_, ?_, ?_⟩
  · have := setHTTPCookiesLoop_error_iff clock 0 cj cookies
    simpa [CookieJar.SetHTTPCookies] using this
  · intro pre bad post hsplit hpre hbad
    have hloop := setHTTPCookiesLoop_first_invalid clock 0 cj pre bad post
      (by simpa using hpre) (by simpa using hbad)
    unfold CookieJar.SetHTTPCookies
    rw [hsplit, hloop, setHTTPCookie_of_invalid _ _ _ hbad]
    exact ⟨rfl, rfl, rfl, rfl⟩
  · intro hall
    have hloop := setHTTPCookiesLoop_all_valid clock 0 cj cookies (by simpa using hall)
    unfold CookieJar.SetHTTPCookies
    rw [hloop]
    exact ⟨rfl, rfl⟩
  · intro c
    exact ⟨rfl, rfl, rfl, rfl, rfl, rfl, rfl, rfl, rfl, rfl, rfl⟩

/-! ## The sweep, step by step -/

theorem sweepStep_eq (cj : CookieJar) (now : Time) (s : Sweep) (k p : Nat) (c : Cookie)
    (hp : s.array[k]? = some p) (hc : s.objects[p]? = some c) :
    sweepStep cj now s k =
      if eligible now c then
        (if cj.OnExpire then { s with trace := s.trace ++ [Event.OnExpire c] }
          else s).DelCookieIndex k
      else if nearExpiry cj now c then
        (if cj.CloseToExpire && !c.CalledCloseToExpire then
          { s with
            trace := s.trace ++ [Event.CloseToExpire c]
            objects := s.objects.set p { c with CalledCloseToExpire := true } }
        else s)
      else { s with objects := s.objects.set p { c with MaxAge := c.MaxAge - 1 } } := by
  simp only [sweepStep, hp, hc, eligible, nearExpiry]

theorem agedFrom_refl (c : Cookie) : c.agedFrom c :=
  ⟨rfl, le_refl _, fun h => h⟩

theorem agedFrom_trans {a b c : Cookie} (h1 : a.agedFrom b) (h2 : b.agedFrom c) :
    a.agedFrom c :=
  ⟨h1.1.trans h2.1, le_trans h1.2.1 h2.2.1, fun h => h1.2.2 (h2.2.2 h)⟩

theorem getElem?_set_same {α : Type} (l : List α) (q : Nat) (a b : α) (h : l[q]? = some b) :
    (l.set q a)[q]? = some a := by
  obtain ⟨hq, _⟩ := List.getElem?_eq_some_iff.mp h
  rw [List.getElem?_set, if_pos rfl, if_pos hq]

theorem swept_identity {now : Time} {before after : List Cookie} (h : Swept now before after) :
    (after.map Cookie.identity).Sublist (before.map Cookie.identity) := by
  induction h with
  | done => exact List.Sublist.refl _
  | keep ha _ ih =>
    simp only [List.map_cons, ha.1]
    exact ih.cons₂ _
  | drop _ _ ih =>
    simp only [List.map_cons]
    exact ih.cons _

theorem swept_fate {now : Time} {before after : List Cookie} (h : Swept now before after) :
    ∀ c ∈ before, (∃ c2 ∈ after, c2.agedFrom c) ∨ eligible now c = true := by
  induction h with
  | done => intro c hc; cases hc
  | keep ha _ ih =>
    intro c hc
    rcases List.mem_cons.mp hc with rfl | hc
    · exact Or.inl ⟨_, List.mem_cons_self _ _, ha⟩
    · rcases ih c hc with ⟨c2, hc2, h2⟩ | h2
      · exact Or.inl ⟨c2, List.mem_cons_of_mem _ hc2, h2⟩
      · exact Or.inr h2
  | drop he _ ih =>
    intro c hc
    rcases List.mem_cons.mp hc with rfl | hc
    · exact Or.inr he
    · exact ih c hc

theorem isValid_false_mono (c : Cookie) (t t2 : Time) (ht : t ≤ t2)
    (h : c.IsValid t = false) : c.IsValid t2 = false := by
  rw [isValid_eq_false] at h ⊢
  rcases h with h | h
  · exact Or.inl (lt_of_lt_of_le h ht)
  · exact Or.inr h

theorem agedFrom_expires {c2 c : Cookie} (h : c2.agedFrom c) : c2.Expires = c.Expires := by
  have := congrArg Cookie.Expires h.1
  exact this

theorem agedFrom_invalid {c2 c : Cookie} (h : c2.agedFrom c) (t t2 : Time) (ht : t ≤ t2)
    (hv : c.IsValid t = false) : c2.IsValid t2 = false := by
  rw [isValid_eq_false] at hv ⊢
  rcases hv with hv | hv
  · left
    rw [agedFrom_expires h]
    exact lt_of_lt_of_le hv ht
  · right
    exact lt_of_le_of_lt h.2.1 hv


theorem collectTick_eq_memory (cj : CookieJar) (now : Time) :
    cj.collectTick now =
      ({ cj with cookies := (cj.collectTickMemory now
            { objects := cj.cookies, slots := List.range cj.cookies.length }).1.records },
        (cj.collectTickMemory now
            { objects := cj.cookies, slots := List.range cj.cookies.length }).2) := by
  simp [CookieJar.collectTick, CookieJar.collectTickMemory, Sweep.start, Sweep.begin,
    Memory.records]

/-- One iteration of the loop writes a record only by setting its latch or by
decrementing its countdown: at every address the record stays the same record. -/
theorem sweepStep_aged (cj : CookieJar) (now : Time) (s : Sweep) (k p : Nat) (c : Cookie)
    (hc : s.objects[p]? = some c) :
    ∃ c2 : Cookie, (sweepStep cj now s k).objects[p]? = some c2 ∧ c2.agedFrom c := by
  cases hk : s.array[k]? with
  | none =>
    simp only [sweepStep, hk]
    exact ⟨c, hc, agedFrom_refl c⟩
  | some q =>
    cases hq : s.objects[q]? with
    | none =>
      simp only [sweepStep, hk, hq]
      exact ⟨c, hc, agedFrom_refl c⟩
    | some d =>
      rw [sweepStep_eq cj now s k q d hk hq]
      have hset : ∀ d2 : Cookie, d2.agedFrom d →
          ∃ c2 : Cookie, (s.objects.set q d2)[p]? = some c2 ∧ c2.agedFrom c := by
        intro d2 hd2
        by_cases hpq : q = p
        · subst hpq
          rw [hq] at hc
          cases hc
          exact ⟨d2, getElem?_set_same _ _ _ _ hq, hd2⟩
        · rw [List.getElem?_set_ne hpq]
          exact ⟨c, hc, agedFrom_refl c⟩
      cases hel : eligible now d
      · simp only [Bool.false_eq_true, if_false]
        cases hne : nearExpiry cj now d
        · simp only [Bool.false_eq_true, if_false]
          exact hset _ ⟨rfl, by show d.MaxAge - 1 ≤ d.MaxAge; omega, fun h => h⟩
        · simp only [if_true]
          by_cases hfire : (cj.CloseToExpire && !d.CalledCloseToExpire) = true
          · rw [if_pos hfire]
            exact hset _ ⟨rfl, le_refl _, fun _ => rfl⟩
          · rw [if_neg hfire]
            exact ⟨c, hc, agedFrom_refl c⟩
      · simp only [if_true]
        have hobj : ∀ (t : Sweep), (t.DelCookieIndex k).objects = t.objects := by
          intro t
          unfold Sweep.DelCookieIndex
          split <;> rfl
        rw [hobj]
        cases cj.OnExpire
        · exact ⟨c, hc, agedFrom_refl c⟩
        · exact ⟨c, hc, agedFrom_refl c⟩

/-- One iteration of the loop leaves the slice as it is or removes one cell. -/
theorem sweepStep_live (cj : CookieJar) (now : Time) (s : Sweep) (k : Nat) :
    (sweepStep cj now s k).live.Sublist s.live := by
  have hdel : ∀ t : Sweep, (t.DelCookieIndex k).live.Sublist t.live := by
    intro t
    rw [sweep_delCookieIndex_live]
    split
    · exact List.Sublist.refl _
    · have h1 := List.Sublist.refl (List.take (Int.toNat (k : Int)) t.live)
      have h2 : (List.drop (Int.toNat (k : Int) + 1) t.live).Sublist
          (List.drop (Int.toNat (k : Int)) t.live) :=
        List.drop_sublist_drop_left t.live (Nat.le_succ _)
      have h3 := h1.append h2
      rwa [List.take_append_drop] at h3
  cases hk : s.array[k]? with
  | none =>
    simp only [sweepStep, hk]
    exact List.Sublist.refl _
  | some q =>
    cases hq : s.objects[q]? with
    | none =>
      simp only [sweepStep, hk, hq]
      exact List.Sublist.refl _
    | some d =>
      rw [sweepStep_eq cj now s k q d hk hq]
      cases hel : eligible now d
      · simp only [Bool.false_eq_true, if_false]
        split
        · split
          · exact List.Sublist.refl _
          · exact List.Sublist.refl _
        · exact List.Sublist.refl _
      · simp only [if_true]
        cases cj.OnExpire
        · exact hdel _
        · exact hdel _

theorem sweepFold_aged (cj : CookieJar) (now : Time) (l : List Nat) :
    ∀ (s : Sweep) (p : Nat) (c : Cookie), s.objects[p]? = some c →
      ∃ c2 : Cookie, (l.foldl (sweepStep cj now) s).objects[p]? = some c2 ∧ c2.agedFrom c := by
  induction l with
  | nil =>
    intro s p c hc
    exact ⟨c, hc, agedFrom_refl c⟩
  | cons k l ih =>
    intro s p c hc
    obtain ⟨c1, hc1, h1⟩ := sweepStep_aged cj now s k p c hc
    obtain ⟨c2, hc2, h2⟩ := ih (sweepStep cj now s k) p c1 hc1
    exact ⟨c2, hc2, agedFrom_trans h2 h1⟩

theorem sweepFold_live (cj : CookieJar) (now : Time) (l : List Nat) :
    ∀ s : Sweep, (l.foldl (sweepStep cj now) s).live.Sublist s.live := by
  induction l with
  | nil => intro s; exact List.Sublist.refl _
  | cons k l ih =>
    intro s
    exact (ih (sweepStep cj now s k)).trans (sweepStep_live cj now s k)


/-! ## A store of distinct objects, by address and by cell -/

theorem sweepStep_objects_length (cj : CookieJar) (now : Time) (s : Sweep) (k : Nat) :
    (sweepStep cj now s k).objects.length = s.objects.length := by
  have hobj : ∀ (t : Sweep), (t.DelCookieIndex k).objects = t.objects := by
    intro t
    unfold Sweep.DelCookieIndex
    split <;> rfl
  cases hk : s.array[k]? with
  | none => simp only [sweepStep, hk]
  | some q =>
    cases hq : s.objects[q]? with
    | none => simp only [sweepStep, hk, hq]
    | some d =>
      rw [sweepStep_eq cj now s k q d hk hq]
      cases hel : eligible now d
      · simp only [Bool.false_eq_true, if_false]
        split
        · split
          · exact List.length_set _ _ _
          · rfl
        · exact List.length_set _ _ _
      · simp only [if_true]
        rw [hobj]
        cases cj.OnExpire <;> rfl

theorem sweepFold_objects_length (cj : CookieJar) (now : Time) (l : List Nat) :
    ∀ s : Sweep, (l.foldl (sweepStep cj now) s).objects.length = s.objects.length := by
  induction l with
  | nil => intro s; rfl
  | cons k l ih =>
    intro s
    exact (ih (sweepStep cj now s k)).trans (sweepStep_objects_length cj now s k)

theorem collectTickMemory_slots (cj : CookieJar) (now : Time) (mem : Memory) :
    (cj.collectTickMemory now mem).1.slots.Sublist mem.slots := by
  have h := sweepFold_live cj now (List.range mem.slots.length) (Sweep.begin mem)
  have hb : (Sweep.begin mem).live = mem.slots := by simp [Sweep.begin, Sweep.live]
  rw [hb] at h
  exact h

/-- C13: validity is monotone, and a sweep revives nothing.  A record invalid
at `t` is invalid at every `t2 >= t`.  A sweep over any store, one pointer
stored more than once included, adds no cell to the slice and creates no
object, and at every address the record after the sweep is the record before
it: the same in every field but `MaxAge` and the latch, with the same
`Expires`, with `MaxAge` not higher; so a record that was invalid at some
instant before the sweep is invalid at every later instant after it. -/
theorem validity_never_revived (cj : CookieJar) (now : Time) (mem : Memory) :
    (∀ (c : Cookie) (t t2 : Time), t ≤ t2 → c.IsValid t = false → c.IsValid t2 = false) ∧
    (cj.collectTickMemory now mem).1.slots.Sublist mem.slots ∧
    (cj.collectTickMemory now mem).1.objects.length = mem.objects.length ∧
    (∀ (p : Nat) (c : Cookie), mem.objects[p]? = some c →
      ∃ c2 : Cookie, (cj.collectTickMemory now mem).1.objects[p]? = some c2 ∧
        c2.identity = c.identity ∧ c2.Expires = c.Expires ∧ c2.MaxAge ≤ c.MaxAge ∧
        (∀ t t2 : Time, t ≤ t2 → c.IsValid t = false → c2.IsValid t2 = false)) := by
  refine ⟨fun c t t2 ht h => isValid_false_mono c t t2 ht h, ?_, ?_, ?_⟩
  · exact collectTickMemory_slots cj now mem
  · exact sweepFold_objects_length cj now _ (Sweep.begin mem)
  · intro p c hc
    obtain ⟨c2, hc2, ha⟩ := sweepFold_aged cj now (List.range mem.slots.length)
      (Sweep.begin mem) p c hc
    exact ⟨c2, hc2, ha.1, agedFrom_expires ha, ha.2.1,
      fun t t2 ht hv => agedFrom_invalid ha t t2 ht hv⟩

/-- C16, on the code: the first `Stop` on the sweeper `NewCookieJar` started
returns, and leaves the goroutine out of its loop with the channel closed;
the second `Stop` sends on the closed channel and panics. -/
theorem stop_twice_panics :
    (Stop Sweeper.started).2 = Outcome.returned ∧
    (Stop Sweeper.started).1 = { looping := false, closed := true } ∧
    (Stop (Stop Sweeper.started).1).2 = Outcome.panicked := by
  exact ⟨by decide, by decide, by decide⟩


end Cookies
